import Mathlib

/-!
Shallow embedding of the api-key-router gateway (Go) and proofs about it.

Sources embedded:
* `internal/domain/key_manager.go` — round-robin credential pool with
  circuit-breaker quarantine (`KeyManager`, `GetNextKey`, `MarkAsDead`,
  `ReviveKey`, `reviveExpiredKeys`, `NewKeyManager`).
* `internal/handler/middleware.go` — `StripAuthHeadersMiddleware`,
  `FlashCache` (`Get`/`Set`), `CacheMiddleware`.
* `internal/handler/proxy_handler.go` — `executeWithRetry`,
  `isRetryableError`, `HandleChatCompletion` error shaping.
* `internal/adapter/gemini_adapter.go` — `mapToGeminiRequest`.

Modelling conventions: wall-clock instants are `Nat` (the code only compares
them and subtracts; `time.Sub` never goes negative on the reachable states,
and `Nat` truncation agrees with the sign test used); Go maps are modelled as
association lists with no duplicate keys (Go map iteration order is
unspecified; the association-list order is one admissible order and none of
the proved statements depend on it); the atomic `int64` rotation counter is a
`Nat` (it is only ever incremented, starting from 0); `float64` generation
parameters are an opaque type parameter `F` (the code only copies them).
Each request is handled sequentially, so the mutex-protected Go code is
embedded as explicit state passing.
-/

namespace ApiKeyRouter

/-! ### Association-list helpers (model of Go maps keyed by string) -/

/-- Lookup in an association list, mirroring Go map read `d[k]`. -/
def dkLookup {β : Type} : List (String × β) → String → Option β
  | [], _ => none
  | (k', v) :: rest, k => if k' = k then some v else dkLookup rest k

/-- Update/insert in an association list, mirroring Go map write `d[k] = v`. -/
def dkUpdate {β : Type} : List (String × β) → String → β → List (String × β)
  | [], k, v => [(k, v)]
  | (k', v') :: rest, k, v =>
      if k' = k then (k, v) :: rest else (k', v') :: dkUpdate rest k v

/-- Erase from an association list, mirroring Go `delete(d, k)`. -/
def dkErase {β : Type} : List (String × β) → String → List (String × β)
  | [], _ => []
  | (k', v') :: rest, k =>
      if k' = k then dkErase rest k else (k', v') :: dkErase rest k

/-! ### Credential pool (`internal/domain/key_manager.go`) -/

/-- State of `domain.KeyManager`: alive keys in rotation order, dead keys with
their death instants, the immutable original membership, the atomic selection
counter and the cooldown duration. -/
structure KeyManager where
  keys : List String
  deadKeys : List (String × Nat)
  originalKeys : List String
  index : Nat
  cooldown : Nat
deriving DecidableEq

/-- Deduplicating, empty-dropping initialisation loop of `NewKeyManager`. -/
def initKeys (keys : List String) : List String :=
  keys.foldl (fun acc k => if k = "" then acc else if k ∈ acc then acc else acc ++ [k]) []

/-- `domain.NewKeyManager`: unique non-empty keys start alive; counter at 0. -/
def NewKeyManager (keys : List String) (cooldown : Nat) : KeyManager :=
  { keys := initKeys keys
    deadKeys := []
    originalKeys := initKeys keys
    index := 0
    cooldown := cooldown }

/-- `(*KeyManager).ReviveKey`: manual revival of a dead key. Empty or unknown
keys are ignored; otherwise the key is deleted from the dead map and — when it
really was dead and is not already in rotation — appended to the alive list.
(The `wasDead`/`delete` sequence of the Go code is rendered as nested
conditionals; deleting a key that is looked up first is the same map.) -/
def ReviveKey (key : String) (km : KeyManager) : KeyManager :=
  if key = "" then km
  else if key ∉ km.originalKeys then km
  else if (dkLookup km.deadKeys key).isSome = false then
    { km with deadKeys := dkErase km.deadKeys key }
  else if key ∈ km.keys then
    { km with deadKeys := dkErase km.deadKeys key }
  else
    { km with deadKeys := dkErase km.deadKeys key, keys := km.keys ++ [key] }

/-- `(*KeyManager).reviveExpiredKeys` at instant `now`: collect every dead key
whose quarantine has elapsed, then revive each (no-op when cooldown is 0). -/
def reviveExpiredKeys (now : Nat) (km : KeyManager) : KeyManager :=
  if km.cooldown = 0 then km
  else
    let keysToRevive := ((km.deadKeys.filter fun p => km.cooldown ≤ now - p.2).map Prod.fst)
    keysToRevive.foldl (fun s k => ReviveKey k s) km

/-- `(*KeyManager).GetNextKey` at instant `now`: sweep expired dead keys, fail
when no key is alive, otherwise bump the counter and pick
`keys[(newIdx - 1) % keyCount]`. -/
def GetNextKey (now : Nat) (km : KeyManager) : Option String × KeyManager :=
  let km1 := reviveExpiredKeys now km
  let keyCount := km1.keys.length
  if keyCount = 0 then (none, km1)
  else
    let newIdx := km1.index + 1
    let selectedIdx := (newIdx - 1) % keyCount
    (some (km1.keys.getD selectedIdx ""), { km1 with index := newIdx })

/-- `(*KeyManager).MarkAsDead` at instant `now`: record the death instant and
filter the key out of the rotation. -/
def MarkAsDead (key : String) (now : Nat) (km : KeyManager) : KeyManager :=
  if key = "" then km
  else if key ∉ km.originalKeys then km
  else
    { km with
      deadKeys := dkUpdate km.deadKeys key now
      keys := km.keys.filter fun k => k ≠ key }

/-- One pool operation, for quantifying over operation sequences. -/
inductive KMOp where
  | next (now : Nat)
  | markDead (key : String) (now : Nat)
  | revive (key : String)
deriving DecidableEq

/-- Apply one pool operation to a pool state. -/
def applyOp (op : KMOp) (km : KeyManager) : KeyManager :=
  match op with
  | .next now => (GetNextKey now km).2
  | .markDead k now => MarkAsDead k now km
  | .revive k => ReviveKey k km

/-- Run a sequence of pool operations from a state. -/
def runOps (ops : List KMOp) (km : KeyManager) : KeyManager :=
  ops.foldl (fun s op => applyOp op s) km

/-- Pool invariant: alive and dead credentials come from the original set,
alive and dead are disjoint, the alive list and the dead map keys carry no
duplicates, and the empty string is never a managed credential. -/
def kmInv (km : KeyManager) : Prop :=
  (∀ k ∈ km.keys, k ∈ km.originalKeys) ∧
  (∀ p ∈ km.deadKeys, p.1 ∈ km.originalKeys) ∧
  (∀ k ∈ km.keys, dkLookup km.deadKeys k = none) ∧
  km.keys.Nodup ∧
  (km.deadKeys.map Prod.fst).Nodup ∧
  "" ∉ km.originalKeys

instance (km : KeyManager) : Decidable (kmInv km) := by
  unfold kmInv
  infer_instance

/-! ### Flash cache (`internal/handler/middleware.go`) -/

/-- `handler.CacheEntry`: response bytes (opaque), expiry and creation instants. -/
structure CacheEntry where
  response : String
  expireAt : Nat
  createdAt : Nat
deriving DecidableEq

/-- `(*CacheEntry).IsExpired` at instant `now`: `time.Now().After(ExpireAt)`,
i.e. strictly after the expiry instant. -/
def IsExpired (now : Nat) (e : CacheEntry) : Bool :=
  decide (e.expireAt < now)

/-- `handler.FlashCache`: entry map, TTL, hit and miss counters. -/
structure FlashCache where
  entries : List (String × CacheEntry)
  ttl : Nat
  hits : Nat
  misses : Nat
deriving DecidableEq

/-- `(*FlashCache).Get` at instant `now`: absent entries and expired entries
count as misses (expired entries are deleted); otherwise the stored bytes are
returned and the hit counter bumped. -/
def FlashCacheGet (now : Nat) (key : String) (c : FlashCache) : Option String × FlashCache :=
  match dkLookup c.entries key with
  | none => (none, { c with misses := c.misses + 1 })
  | some entry =>
      if IsExpired now entry then
        (none, { c with entries := dkErase c.entries key, misses := c.misses + 1 })
      else
        (some entry.response, { c with hits := c.hits + 1 })

/-- `(*FlashCache).Set` at instant `now`: store with expiry `now + ttl`. -/
def FlashCacheSet (now : Nat) (key : String) (response : String) (c : FlashCache) : FlashCache :=
  { c with entries := dkUpdate c.entries key ⟨response, now + c.ttl, now⟩ }

/-- Outcome of one request through `handler.CacheMiddleware`: final status,
emitted body, resulting cache state, and whether the cache answered it. -/
structure MWResult where
  status : Nat
  body : String
  cache : FlashCache
  servedFromCache : Bool
deriving DecidableEq

/-- `handler.CacheMiddleware` for one request. `hash` stands for the SHA-256
fingerprint `HashRequest` (opaque to the control flow); the downstream chain
(`c.Next`) is summarised by the final status `hStatus` and captured body
`hBody` it would produce, as observed through the wrapping `responseWriter`.
Non-POST or non-chat-completion paths bypass the cache; a hit is emitted with
status 200 and aborts the chain; a miss runs the chain and inserts the
captured body only when the final status is exactly 200. -/
def CacheMiddleware (hash : String → String) (now : Nat) (method path reqBody : String)
    (hStatus : Nat) (hBody : String) (c : FlashCache) : MWResult :=
  if method ≠ "POST" ∨ (path ≠ "/v1/chat/completions" ∧ path ≠ "/chat/completions") then
    ⟨hStatus, hBody, c, false⟩
  else
    let cacheKey := hash reqBody
    match FlashCacheGet now cacheKey c with
    | (some cached, c1) => ⟨200, cached, c1, true⟩
    | (none, c1) =>
        if hStatus = 200 then ⟨hStatus, hBody, FlashCacheSet now cacheKey hBody c1, false⟩
        else ⟨hStatus, hBody, c1, false⟩

/-! ### Auth-header middleware (`internal/handler/middleware.go`) -/

/-- The incoming HTTP request as the middleware sees it: its header list. -/
structure HttpRequest where
  headers : List (String × String)
deriving DecidableEq

/-- `(*gin.Context).GetHeader`: empty string when the header is absent. -/
def getHeader (r : HttpRequest) (name : String) : String :=
  (dkLookup r.headers name).getD ""

/-- A gin context: the request plus the context key/value store (`c.Set`). -/
structure GinCtx where
  req : HttpRequest
  ctxVals : List (String × String)
deriving DecidableEq

/-- `handler.StripAuthHeadersMiddleware` body: when an Authorization header is
present it records a masked marker in the context store, then calls `c.Next`.
The request itself — its headers included — is left untouched. -/
def StripAuthHeadersMiddleware (c : GinCtx) : GinCtx :=
  if getHeader c.req "Authorization" ≠ "" then
    { c with ctxVals := dkUpdate c.ctxVals "original_auth" "***STRIPPED***" }
  else c

/-! ### Request translation (`internal/adapter/gemini_adapter.go`) -/

/-- `adapter.OpenAIMessage`. -/
structure OpenAIMessage where
  role : String
  content : String
deriving DecidableEq

/-- `adapter.OpenAIRequest`. `F` is the opaque type of `float64` parameters
(the code only copies them, never computes with them). -/
structure OpenAIRequest (F : Type) where
  model : String
  messages : List OpenAIMessage
  temperature : Option F := none
  maxTokens : Option Int := none
  topP : Option F := none
  stop : List String := []
deriving DecidableEq

/-- `adapter.GeminiPart`. -/
structure GeminiPart where
  text : String
deriving DecidableEq

/-- `adapter.GeminiContent`. -/
structure GeminiContent where
  role : String := ""
  parts : List GeminiPart
deriving DecidableEq

/-- `adapter.GeminiGenerationConfig`. -/
structure GeminiGenerationConfig (F : Type) where
  temperature : Option F := none
  topP : Option F := none
  topK : Option Int := none
  maxOutputTokens : Option Int := none
  stopSequences : List String := []
deriving DecidableEq

/-- `adapter.GeminiRequest`. -/
structure GeminiRequest (F : Type) where
  contents : List GeminiContent
  systemInstruction : Option GeminiContent := none
  generationConfig : GeminiGenerationConfig F
deriving DecidableEq

/-- The per-message step of the `for _, msg := range req.Messages` loop in
`mapToGeminiRequest`: `system` overwrites the pending system-instruction
string, `user`/`assistant` append a content entry (`assistant` becomes
`model`), every other role falls through the `switch` untouched. -/
def geminiMsgStep (acc : List GeminiContent × String) (msg : OpenAIMessage) :
    List GeminiContent × String :=
  if msg.role = "system" then (acc.1, msg.content)
  else if msg.role = "user" then (acc.1 ++ [⟨"user", [⟨msg.content⟩]⟩], acc.2)
  else if msg.role = "assistant" then (acc.1 ++ [⟨"model", [⟨msg.content⟩]⟩], acc.2)
  else acc

/-- `(*GeminiAdapter).mapToGeminiRequest`: run the message loop, attach the
system instruction only when the accumulated string is non-empty, and copy the
generation parameters that are present. -/
def mapToGeminiRequest {F : Type} (req : OpenAIRequest F) : GeminiRequest F :=
  let acc := req.messages.foldl geminiMsgStep ([], "")
  { contents := acc.1
    systemInstruction := if acc.2 ≠ "" then some ⟨"", [⟨acc.2⟩]⟩ else none
    generationConfig :=
      { temperature := req.temperature
        maxOutputTokens := req.maxTokens
        topP := req.topP
        stopSequences := req.stop } }

/-! ### Retry core and gateway (`internal/handler/proxy_handler.go`) -/

/-- Substring test on strings (`strings.Contains`). -/
def listIsPrefixOfChars : List Char → List Char → Bool
  | [], _ => true
  | _ :: _, [] => false
  | a :: as, b :: bs => a = b && listIsPrefixOfChars as bs

/-- Whether `needle` occurs inside `hay` (`strings.Contains hay needle`). -/
def listContainsChars (hay needle : List Char) : Bool :=
  match hay with
  | [] => listIsPrefixOfChars needle []
  | _ :: rest => listIsPrefixOfChars needle hay || listContainsChars rest needle

/-- `strings.Contains s substr`. -/
def strContains (s substr : String) : Bool :=
  listContainsChars s.data substr.data

/-- `(*ProxyHandler).isRetryableError` on the upstream error text: 429 / rate
limit, 5xx markers, quota exhaustion are retryable; everything else is not. -/
def isRetryableError (errStr : String) : Bool :=
  if strContains errStr "429" || strContains errStr "rate limit" then true
  else if strContains errStr "500" || strContains errStr "502" ||
      strContains errStr "503" || strContains errStr "504" then true
  else if strContains errStr "quota" || strContains errStr "exhausted" then true
  else false

/-- Result triple of `executeWithRetry` (`resp, attempts, err`) together with
the pool state it leaves behind. -/
structure RetryResult where
  response : Option String
  attempts : Nat
  err : Option String
  km : KeyManager
deriving DecidableEq

/-- The `for attempt := 1..maxRetries` loop of `executeWithRetry`. `upstream`
models `NewGeminiAdapter(key).ChatCompletion` for the fixed request: per
credential it either succeeds with a response or fails with an error string.
`fuel` counts the attempts still allowed; on a retryable failure the
credential is quarantined and the loop continues, on a non-retryable failure
the loop stops and returns that error, and when attempts run out the last
retryable error is returned. -/
def retryLoop (upstream : String → Except String String) (now maxRetries : Nat) :
    Nat → Nat → KeyManager → Option String → RetryResult
  | 0, _, km, lastErr => ⟨none, maxRetries, lastErr, km⟩
  | fuel + 1, attempt, km, _lastErr =>
      match GetNextKey now km with
      | (none, km1) => ⟨none, attempt, some "no keys available in the pool", km1⟩
      | (some key, km1) =>
          match upstream key with
          | .ok resp => ⟨some resp, attempt, none, km1⟩
          | .error e =>
              if isRetryableError e then
                retryLoop upstream now maxRetries fuel (attempt + 1) (MarkAsDead key now km1) (some e)
              else ⟨none, attempt, some e, km1⟩

/-- `(*ProxyHandler).executeWithRetry`. -/
def executeWithRetry (upstream : String → Except String String) (now maxRetries : Nat)
    (km : KeyManager) : RetryResult :=
  retryLoop upstream now maxRetries maxRetries 1 km none

/-- A client-facing outcome of the chat-completion endpoint: either a 200 with
a response body, or an OpenAI-shaped error (status, error type, message). -/
inductive GatewayResponse where
  | ok (resp : String)
  | err (status : Nat) (errType : String) (message : String)
deriving DecidableEq

/-- `(*ProxyHandler).HandleChatCompletion` after JSON binding succeeded:
an empty messages array is rejected with 400/invalid_request_error; any error
from `executeWithRetry` is emitted as 503/server_error; otherwise the response
is emitted with 200. -/
def HandleChatCompletion {F : Type} (upstream : String → Except String String)
    (now maxRetries : Nat) (km : KeyManager) (req : OpenAIRequest F) :
    GatewayResponse × KeyManager :=
  if req.messages = [] then
    (.err 400 "invalid_request_error" "messages array is required", km)
  else
    let r := executeWithRetry upstream now maxRetries km
    match r.err with
    | some _ =>
        (.err 503 "server_error" "Service temporarily unavailable. Please try again later.", r.km)
    | none => (.ok (r.response.getD ""), r.km)

/-- The request-validation step of `HandleChatCompletion` in isolation:
`some` error exactly when the messages array is empty. -/
def validateChatRequest {F : Type} (req : OpenAIRequest F) : Option GatewayResponse :=
  if req.messages = [] then
    some (.err 400 "invalid_request_error" "messages array is required")
  else none

/-! ### Concrete states used by witnesses and counterexamples -/

/-- A mid-life pool: three alive keys, counter already at 4, cooldown 0. -/
def kmC4 : KeyManager :=
  { keys := ["a", "b", "c"], deadKeys := [], originalKeys := ["a", "b", "c"],
    index := 4, cooldown := 0 }

/-- Fresh two-key pool with a positive cooldown. -/
def kmC6 : KeyManager := NewKeyManager ["a", "b"] 5

/-- Fresh two-key pool with cooldown 0. -/
def kmC9 : KeyManager := NewKeyManager ["a", "b"] 0

/-- Pool of spec scenario 4: a credential the upstream rejects with 401,
then a healthy one. -/
def kmC1 : KeyManager := NewKeyManager ["K401", "KOK"] 0

/-- Upstream oracle of spec scenario 4: `K401` draws an authentication
failure (a non-retryable 4xx), any other key succeeds. -/
def upstreamC1 : String → Except String String := fun key =>
  if key = "K401" then
    Except.error "gemini API error [401]: API key not valid. Please pass a valid API key."
  else Except.ok "canonical success body"

/-- The request of spec scenario 4. -/
def reqC1 : OpenAIRequest Unit :=
  { model := "gpt-4", messages := [⟨"user", "hi"⟩] }

/-- A request with two system messages, to probe concatenation. -/
def reqC3 : OpenAIRequest Unit :=
  { model := "gpt-4", messages := [⟨"system", "A"⟩, ⟨"system", "B"⟩, ⟨"user", "hi"⟩] }

/-- A request containing a message with an unrecognised role. -/
def reqC10 : OpenAIRequest Unit :=
  { model := "gpt-4", messages := [⟨"function", "tool output"⟩, ⟨"user", "hi"⟩] }

/-- A cache holding one entry that expires exactly at instant 5. -/
def cacheC7 : FlashCache :=
  { entries := [("k", ⟨"resp", 5, 0⟩)], ttl := 300, hits := 0, misses := 0 }

/-- An empty cache with the default 5-minute TTL (in seconds). -/
def cacheC8 : FlashCache := { entries := [], ttl := 300, hits := 0, misses := 0 }

/-- A gin context whose request carries client credential headers. -/
def ctxC2 : GinCtx :=
  { req := { headers := [("Authorization", "Bearer sk-secret-token"), ("X-Api-Key", "another-secret")] }
    ctxVals := [] }

/-! ### Spec-side descriptions used for the corrected translation claim -/

/-- Spec reading of the content mapping: `user` and `assistant` messages
become ordered content entries, `assistant` relabelled `model`; everything
else contributes nothing. -/
def geminiContentsSpec (msgs : List OpenAIMessage) : List GeminiContent :=
  msgs.filterMap fun m =>
    if m.role = "user" then some ⟨"user", [⟨m.content⟩]⟩
    else if m.role = "assistant" then some ⟨"model", [⟨m.content⟩]⟩
    else none

/-- The content of the last `system` message of the list (empty string if
there is none). -/
def lastSystemContent (msgs : List OpenAIMessage) : String :=
  ((msgs.filter fun m => m.role = "system").map OpenAIMessage.content).getLastD ""

/-! ## Theorems -/

/-! ### Association-list lemmas -/

theorem dkLookup_update_self {β : Type} (d : List (String × β)) (k : String) (v : β) :
    dkLookup (dkUpdate d k v) k = some v := by
  induction d with
  | nil => simp [dkUpdate, dkLookup]
  | cons p rest ih =>
      by_cases h : p.1 = k
      · simp [dkUpdate, dkLookup, h]
      · simp [dkUpdate, dkLookup, h, ih]

theorem dkLookup_update_ne {β : Type} (d : List (String × β)) (k k' : String) (v : β)
    (h : k' ≠ k) : dkLookup (dkUpdate d k v) k' = dkLookup d k' := by
  have hk : ¬ k = k' := fun hh => h hh.symm
  induction d with
  | nil => simp [dkUpdate, dkLookup, hk]
  | cons p rest ih =>
      by_cases hp : p.1 = k
      · subst hp
        simp [dkUpdate, dkLookup, hk]
      · simp [dkUpdate, dkLookup, hp, ih]

theorem dkLookup_erase {β : Type} (d : List (String × β)) (k k' : String) :
    dkLookup (dkErase d k) k' = if k' = k then none else dkLookup d k' := by
  induction d with
  | nil => simp [dkErase, dkLookup]
  | cons p rest ih =>
      by_cases hp : p.1 = k
      · by_cases hk : k' = k
        · subst hk
          simpa [dkErase, hp] using ih
        · have h3 : ¬ k = k' := fun hh => hk hh.symm
          simp only [dkErase, dkLookup, hp, if_true, ih, if_neg hk]
          simp [dkLookup, hp, h3, hk]
      · by_cases hpk : p.1 = k'
        · have hkk : ¬ k' = k := fun hh => hp (hpk.trans hh)
          simp [dkErase, dkLookup, hp, hpk, hkk]
        · simp [dkErase, dkLookup, hp, hpk, ih]

theorem mem_dkUpdate_elim {β : Type} {d : List (String × β)} {k : String} {v : β}
    {p : String × β} (h : p ∈ dkUpdate d k v) : p ∈ d ∨ p = (k, v) := by
  induction d with
  | nil => simpa [dkUpdate] using h
  | cons q rest ih =>
      by_cases hq : q.1 = k
      · simp only [dkUpdate, hq, if_true, List.mem_cons] at h
        rcases h with h | h
        · exact Or.inr h
        · exact Or.inl (List.mem_cons_of_mem _ h)
      · simp only [dkUpdate, hq, if_false, List.mem_cons] at h
        rcases h with h | h
        · exact Or.inl (by simp [h])
        · rcases ih h with h | h
          · exact Or.inl (List.mem_cons_of_mem _ h)
          · exact Or.inr h

theorem mem_dkErase_sub {β : Type} {d : List (String × β)} {k : String}
    {p : String × β} (h : p ∈ dkErase d k) : p ∈ d := by
  induction d with
  | nil => simp [dkErase] at h
  | cons q rest ih =>
      by_cases hq : q.1 = k
      · simp only [dkErase, hq, if_true] at h
        exact List.mem_cons_of_mem _ (ih h)
      · simp only [dkErase, hq, if_false, List.mem_cons] at h
        rcases h with h | h
        · simp [h]
        · exact List.mem_cons_of_mem _ (ih h)

theorem dkUpdate_map_fst {β : Type} (d : List (String × β)) (k : String) (v : β) :
    (dkUpdate d k v).map Prod.fst =
      if k ∈ d.map Prod.fst then d.map Prod.fst else d.map Prod.fst ++ [k] := by
  induction d with
  | nil => simp [dkUpdate]
  | cons p rest ih =>
      by_cases hp : p.1 = k
      · simp [dkUpdate, hp]
      · have : ¬ k = p.1 := fun hh => hp hh.symm
        by_cases hm : k ∈ rest.map Prod.fst
        · simp [dkUpdate, hp, hm, ih, this]
        · simp [dkUpdate, hp, hm, ih, this]

theorem dkErase_map_fst {β : Type} (d : List (String × β)) (k : String) :
    (dkErase d k).map Prod.fst = (d.map Prod.fst).filter fun x => x ≠ k := by
  induction d with
  | nil => simp [dkErase]
  | cons p rest ih =>
      by_cases hp : p.1 = k
      · simp [dkErase, hp, ih]
      · simp [dkErase, hp, ih]

theorem dkLookup_isSome_of_mem {β : Type} {d : List (String × β)} {p : String × β}
    (h : p ∈ d) : (dkLookup d p.1).isSome := by
  induction d with
  | nil => simp at h
  | cons q rest ih =>
      by_cases hq : q.1 = p.1
      · simp [dkLookup, hq]
      · rcases List.mem_cons.mp h with h | h
        · exact absurd (congrArg Prod.fst h.symm) hq
        · simp [dkLookup, hq, ih h]

theorem dkLookup_eq_some_of_mem_nodup {β : Type} {d : List (String × β)} {k : String} {v : β}
    (hnd : (d.map Prod.fst).Nodup) (h : (k, v) ∈ d) : dkLookup d k = some v := by
  induction d with
  | nil => simp at h
  | cons q rest ih =>
      simp only [List.map_cons, List.nodup_cons] at hnd
      rcases List.mem_cons.mp h with h | h
      · simp [dkLookup, ← h]
      · have hq : ¬ q.1 = k := by
          intro hqk
          refine hnd.1 ?_
          rw [hqk]
          exact List.mem_map.mpr ⟨(k, v), h, rfl⟩
        simp [dkLookup, hq, ih hnd.2 h]

theorem dkLookup_eq_none_of_not_mem_fst {β : Type} {d : List (String × β)} {k : String}
    (h : k ∉ d.map Prod.fst) : dkLookup d k = none := by
  induction d with
  | nil => simp [dkLookup]
  | cons q rest ih =>
      simp only [List.map_cons, List.mem_cons] at h
      push_neg at h
      have hq : ¬ q.1 = k := fun hh => h.1 hh.symm
      simp [dkLookup, hq, ih h.2]

theorem dkErase_eq_of_lookup_none {β : Type} {d : List (String × β)} {k : String}
    (h : dkLookup d k = none) : dkErase d k = d := by
  induction d with
  | nil => simp [dkErase]
  | cons p rest ih =>
      by_cases hp : p.1 = k
      · simp [dkLookup, hp] at h
      · simp only [dkLookup, hp, if_false] at h
        simp [dkErase, hp, ih h]

/-! ### Pool operation shape lemmas -/

theorem ReviveKey_originalKeys (k : String) (km : KeyManager) :
    (ReviveKey k km).originalKeys = km.originalKeys := by
  unfold ReviveKey
  split
  · rfl
  split
  · rfl
  split
  · rfl
  split
  · rfl
  · rfl

theorem ReviveKey_cooldown (k : String) (km : KeyManager) :
    (ReviveKey k km).cooldown = km.cooldown := by
  unfold ReviveKey
  split
  · rfl
  split
  · rfl
  split
  · rfl
  split
  · rfl
  · rfl

theorem ReviveKey_index (k : String) (km : KeyManager) :
    (ReviveKey k km).index = km.index := by
  unfold ReviveKey
  split
  · rfl
  split
  · rfl
  split
  · rfl
  split
  · rfl
  · rfl

theorem mem_ReviveKey_keys_of_mem {x : String} (k : String) {km : KeyManager}
    (h : x ∈ km.keys) : x ∈ (ReviveKey k km).keys := by
  unfold ReviveKey
  split
  · exact h
  split
  · exact h
  split
  · exact h
  split
  · exact h
  · exact List.mem_append_left _ h

theorem mem_ReviveKey_keys_elim {x k : String} {km : KeyManager}
    (h : x ∈ (ReviveKey k km).keys) : x ∈ km.keys ∨ x = k := by
  unfold ReviveKey at h
  split at h
  · exact Or.inl h
  split at h
  · exact Or.inl h
  split at h
  · exact Or.inl h
  split at h
  · exact Or.inl h
  · rcases List.mem_append.mp h with h | h
    · exact Or.inl h
    · exact Or.inr (List.mem_singleton.mp h)

theorem ReviveKey_deadKeys_lookup_ne {x k : String} (km : KeyManager) (h : x ≠ k) :
    dkLookup (ReviveKey k km).deadKeys x = dkLookup km.deadKeys x := by
  unfold ReviveKey
  split
  · rfl
  split
  · rfl
  split
  · simp [dkLookup_erase, h]
  split
  · simp [dkLookup_erase, h]
  · simp [dkLookup_erase, h]

theorem ReviveKey_self_mem {k : String} {km : KeyManager} (hk : k ≠ "")
    (horig : k ∈ km.originalKeys) (hdead : (dkLookup km.deadKeys k).isSome) :
    k ∈ (ReviveKey k km).keys := by
  unfold ReviveKey
  rw [if_neg hk, if_neg (by simpa using horig)]
  rw [if_neg (by simp [hdead])]
  split
  · assumption
  · exact List.mem_append_right _ (List.mem_singleton.mpr rfl)

theorem MarkAsDead_originalKeys (k : String) (now : Nat) (km : KeyManager) :
    (MarkAsDead k now km).originalKeys = km.originalKeys := by
  unfold MarkAsDead
  split
  · rfl
  split
  · rfl
  · rfl

theorem MarkAsDead_index (k : String) (now : Nat) (km : KeyManager) :
    (MarkAsDead k now km).index = km.index := by
  unfold MarkAsDead
  split
  · rfl
  split
  · rfl
  · rfl

theorem MarkAsDead_cooldown (k : String) (now : Nat) (km : KeyManager) :
    (MarkAsDead k now km).cooldown = km.cooldown := by
  unfold MarkAsDead
  split
  · rfl
  split
  · rfl
  · rfl

theorem mem_getD {α : Type} {l : List α} {n : Nat} (d : α) (h : n < l.length) :
    l.getD n d ∈ l := by
  induction l generalizing n with
  | nil => simp at h
  | cons a rest ih =>
      cases n with
      | zero => simp [List.getD]
      | succ m =>
          simp only [List.length_cons, Nat.succ_lt_succ_iff] at h
          exact List.mem_cons_of_mem _ (ih h)

/-! ### Invariant preservation -/

theorem initKeys_aux (l acc : List String) (h1 : acc.Nodup) (h2 : "" ∉ acc) :
    (l.foldl (fun acc k => if k = "" then acc else if k ∈ acc then acc else acc ++ [k]) acc).Nodup ∧
    "" ∉ l.foldl (fun acc k => if k = "" then acc else if k ∈ acc then acc else acc ++ [k]) acc := by
  induction l generalizing acc with
  | nil => exact ⟨h1, h2⟩
  | cons a rest ih =>
      rw [List.foldl_cons]
      by_cases ha : a = ""
      · simpa [ha] using ih acc h1 h2
      · by_cases hm : a ∈ acc
        · simpa [ha, hm] using ih acc h1 h2
        · have hnd : (acc ++ [a]).Nodup := by
            refine h1.append (List.nodup_singleton a) ?_
            intro x hx hb
            rw [List.mem_singleton.mp hb] at hx
            exact hm hx
          have hne : "" ∉ acc ++ [a] := by
            intro hx
            rcases List.mem_append.mp hx with hx | hx
            · exact h2 hx
            · exact ha (List.mem_singleton.mp hx).symm
          simpa [ha, hm] using ih (acc ++ [a]) hnd hne

theorem kmInv_NewKeyManager (keys : List String) (cd : Nat) :
    kmInv (NewKeyManager keys cd) := by
  have h := initKeys_aux keys [] List.nodup_nil (by simp)
  exact ⟨fun k hk => hk, fun p hp => absurd hp (List.not_mem_nil p),
    fun k _ => rfl, h.1, List.nodup_nil, h.2⟩

theorem kmInv_MarkAsDead {km : KeyManager} (k : String) (now : Nat) (h : kmInv km) :
    kmInv (MarkAsDead k now km) := by
  obtain ⟨h1, h2, h3, h4, h5, h6⟩ := h
  unfold MarkAsDead
  split
  · exact ⟨h1, h2, h3, h4, h5, h6⟩
  split
  · exact ⟨h1, h2, h3, h4, h5, h6⟩
  · rename_i hk horig
    refine ⟨?_, ?_, ?_, h4.filter _, ?_, h6⟩
    · intro x hx
      exact h1 x (List.mem_of_mem_filter hx)
    · intro p hp
      rcases mem_dkUpdate_elim hp with hp | hp
      · exact h2 p hp
      · rw [hp]
        exact not_not.mp horig
    · intro x hx
      have hx' := List.mem_filter.mp hx
      have hxk : x ≠ k := by simpa using hx'.2
      rw [dkLookup_update_ne _ _ _ _ hxk]
      exact h3 x hx'.1
    · rw [dkUpdate_map_fst]
      split
      · exact h5
      · rename_i hnm
        refine h5.append (List.nodup_singleton k) ?_
        intro a ha hb
        rw [List.mem_singleton.mp hb] at ha
        exact hnm ha

theorem kmInv_ReviveKey {km : KeyManager} (k : String) (h : kmInv km) :
    kmInv (ReviveKey k km) := by
  obtain ⟨h1, h2, h3, h4, h5, h6⟩ := h
  have herase2 : ∀ p ∈ dkErase km.deadKeys k, p.1 ∈ km.originalKeys :=
    fun p hp => h2 p (mem_dkErase_sub hp)
  have herase5 : ((dkErase km.deadKeys k).map Prod.fst).Nodup := by
    rw [dkErase_map_fst]
    exact h5.filter _
  have herase3 : ∀ x ∈ km.keys, dkLookup (dkErase km.deadKeys k) x = none := by
    intro x hx
    rw [dkLookup_erase]
    split
    · rfl
    · exact h3 x hx
  unfold ReviveKey
  split
  · exact ⟨h1, h2, h3, h4, h5, h6⟩
  split
  · exact ⟨h1, h2, h3, h4, h5, h6⟩
  split
  · exact ⟨h1, herase2, herase3, h4, herase5, h6⟩
  split
  · exact ⟨h1, herase2, herase3, h4, herase5, h6⟩
  · rename_i hk horig hdead hmem
    refine ⟨?_, herase2, ?_, ?_, herase5, h6⟩
    · intro x hx
      rcases List.mem_append.mp hx with hx | hx
      · exact h1 x hx
      · rw [List.mem_singleton.mp hx]
        exact not_not.mp horig
    · intro x hx
      rcases List.mem_append.mp hx with hx | hx
      · exact herase3 x hx
      · rw [List.mem_singleton.mp hx, dkLookup_erase]
        simp
    · refine h4.append (List.nodup_singleton k) ?_
      intro a ha hb
      rw [List.mem_singleton.mp hb] at ha
      exact hmem ha

theorem kmInv_foldl_ReviveKey (l : List String) {km : KeyManager} (h : kmInv km) :
    kmInv (l.foldl (fun s k => ReviveKey k s) km) := by
  induction l generalizing km with
  | nil => exact h
  | cons a rest ih => exact ih (kmInv_ReviveKey a h)

theorem kmInv_reviveExpiredKeys {km : KeyManager} (now : Nat) (h : kmInv km) :
    kmInv (reviveExpiredKeys now km) := by
  simp only [reviveExpiredKeys]
  split
  · exact h
  · exact kmInv_foldl_ReviveKey _ h

theorem kmInv_GetNextKey {km : KeyManager} (now : Nat) (h : kmInv km) :
    kmInv (GetNextKey now km).2 := by
  have h' := kmInv_reviveExpiredKeys now h
  simp only [GetNextKey]
  split
  · exact h'
  · exact h'

theorem foldl_ReviveKey_originalKeys (l : List String) (km : KeyManager) :
    (l.foldl (fun s k => ReviveKey k s) km).originalKeys = km.originalKeys := by
  induction l generalizing km with
  | nil => rfl
  | cons a rest ih => rw [List.foldl_cons, ih, ReviveKey_originalKeys]

theorem reviveExpiredKeys_originalKeys (now : Nat) (km : KeyManager) :
    (reviveExpiredKeys now km).originalKeys = km.originalKeys := by
  simp only [reviveExpiredKeys]
  split
  · rfl
  · exact foldl_ReviveKey_originalKeys _ _

theorem GetNextKey_originalKeys (now : Nat) (km : KeyManager) :
    (GetNextKey now km).2.originalKeys = km.originalKeys := by
  simp only [GetNextKey]
  split
  · exact reviveExpiredKeys_originalKeys now km
  · exact reviveExpiredKeys_originalKeys now km

theorem runOps_append (l1 l2 : List KMOp) (km : KeyManager) :
    runOps (l1 ++ l2) km = runOps l2 (runOps l1 km) := by
  simp [runOps, List.foldl_append]

theorem foldl_ReviveKey_index (l : List String) (km : KeyManager) :
    (l.foldl (fun s k => ReviveKey k s) km).index = km.index := by
  induction l generalizing km with
  | nil => rfl
  | cons a rest ih => rw [List.foldl_cons, ih, ReviveKey_index]

theorem reviveExpiredKeys_index (now : Nat) (km : KeyManager) :
    (reviveExpiredKeys now km).index = km.index := by
  simp only [reviveExpiredKeys]
  split
  · rfl
  · exact foldl_ReviveKey_index _ _

theorem GetNextKey_index_ge (now : Nat) (km : KeyManager) :
    km.index ≤ (GetNextKey now km).2.index := by
  simp only [GetNextKey]
  split
  · exact Nat.le_of_eq (reviveExpiredKeys_index now km).symm
  · calc km.index = (reviveExpiredKeys now km).index := (reviveExpiredKeys_index now km).symm
      _ ≤ (reviveExpiredKeys now km).index + 1 := Nat.le_succ _

theorem kmInv_applyOp {km : KeyManager} (op : KMOp) (h : kmInv km) :
    kmInv (applyOp op km) := by
  cases op with
  | next now => exact kmInv_GetNextKey now h
  | markDead k now => exact kmInv_MarkAsDead k now h
  | revive k => exact kmInv_ReviveKey k h

theorem applyOp_index_ge (op : KMOp) (km : KeyManager) :
    km.index ≤ (applyOp op km).index := by
  cases op with
  | next now => exact GetNextKey_index_ge now km
  | markDead k now => exact Nat.le_of_eq (MarkAsDead_index k now km).symm
  | revive k => exact Nat.le_of_eq (ReviveKey_index k km).symm

theorem kmInv_runOps {km : KeyManager} (ops : List KMOp) (h : kmInv km) :
    kmInv (runOps ops km) := by
  induction ops generalizing km with
  | nil => exact h
  | cons op rest ih => exact ih (kmInv_applyOp op h)

/-! ### Selection and sweep lemmas -/

theorem GetNextKey_mem {now : Nat} {km : KeyManager} {k : String}
    (h : (GetNextKey now km).1 = some k) : k ∈ (reviveExpiredKeys now km).keys := by
  simp only [GetNextKey] at h
  split at h
  · simp at h
  · rename_i hn
    simp only [Option.some.injEq] at h
    rw [← h]
    exact mem_getD _ (Nat.mod_lt _ (Nat.pos_of_ne_zero hn))

theorem foldl_ReviveKey_mem_mono (l : List String) {km : KeyManager} {x : String}
    (h : x ∈ km.keys) : x ∈ (l.foldl (fun s k => ReviveKey k s) km).keys := by
  induction l generalizing km with
  | nil => exact h
  | cons a rest ih => exact ih (mem_ReviveKey_keys_of_mem a h)

theorem foldl_ReviveKey_notMem {c : String} (l : List String) {km : KeyManager}
    (hcl : c ∉ l) (hck : c ∉ km.keys) :
    c ∉ (l.foldl (fun s k => ReviveKey k s) km).keys := by
  induction l generalizing km with
  | nil => exact hck
  | cons a rest ih =>
      have hca : c ≠ a := fun hh => hcl (hh ▸ List.mem_cons_self a rest)
      refine ih (fun hh => hcl (List.mem_cons_of_mem _ hh)) ?_
      intro hh
      rcases mem_ReviveKey_keys_elim hh with hh | hh
      · exact hck hh
      · exact hca hh

theorem foldl_ReviveKey_mem_of_dead (l : List String) {km : KeyManager} {x : String}
    (hx : x ∈ l) (hxo : x ∈ km.originalKeys) (hxe : x ≠ "")
    (hxd : (dkLookup km.deadKeys x).isSome) :
    x ∈ (l.foldl (fun s k => ReviveKey k s) km).keys := by
  induction l generalizing km with
  | nil => simp at hx
  | cons a rest ih =>
      by_cases hax : a = x
      · subst hax
        exact foldl_ReviveKey_mem_mono rest (ReviveKey_self_mem hxe hxo hxd)
      · rcases List.mem_cons.mp hx with hh | hh
        · exact absurd hh.symm hax
        · refine ih hh ?_ ?_
          · rw [ReviveKey_originalKeys]
            exact hxo
          · rw [ReviveKey_deadKeys_lookup_ne km (fun h2 => hax h2.symm)]
            exact hxd

theorem dkUpdate_map_fst_nodup {β : Type} {d : List (String × β)} (k : String) (v : β)
    (h : (d.map Prod.fst).Nodup) : ((dkUpdate d k v).map Prod.fst).Nodup := by
  rw [dkUpdate_map_fst]
  split
  · exact h
  · rename_i hnm
    refine h.append (List.nodup_singleton k) ?_
    intro a ha hb
    rw [List.mem_singleton.mp hb] at ha
    exact hnm ha

theorem MarkAsDead_eq_self_empty {c : String} (now : Nat) (km : KeyManager)
    (h : c = "") : MarkAsDead c now km = km := by
  unfold MarkAsDead
  rw [if_pos h]

theorem MarkAsDead_eq_self_unknown {c : String} (now : Nat) (km : KeyManager)
    (h1 : c ≠ "") (h2 : c ∉ km.originalKeys) : MarkAsDead c now km = km := by
  unfold MarkAsDead
  rw [if_neg h1, if_pos h2]

theorem MarkAsDead_eq_main {c : String} (now : Nat) (km : KeyManager)
    (h1 : c ≠ "") (h2 : c ∈ km.originalKeys) :
    MarkAsDead c now km =
      { km with
        deadKeys := dkUpdate km.deadKeys c now
        keys := km.keys.filter fun k => k ≠ c } := by
  unfold MarkAsDead
  rw [if_neg h1, if_neg (not_not_intro h2)]

theorem notMem_reviveExpiredKeys {km : KeyManager} {c : String} (now : Nat)
    (hck : c ∉ km.keys)
    (hcd : ∀ p ∈ km.deadKeys, p.1 = c → km.cooldown ≠ 0 → ¬ km.cooldown ≤ now - p.2) :
    c ∉ (reviveExpiredKeys now km).keys := by
  simp only [reviveExpiredKeys]
  split
  · exact hck
  · rename_i hc0
    refine foldl_ReviveKey_notMem _ ?_ hck
    intro hc
    rcases List.mem_map.mp hc with ⟨p, hp, hpc⟩
    have hmem := List.mem_filter.mp hp
    exact hcd p hmem.1 hpc hc0 (by simpa using hmem.2)

/-! ### Claim theorems about the credential pool -/

/-- C4: every `GetNextKey` call first sweeps expired dead credentials back
into the alive list (the sweep is the identity when the cooldown is zero, and
when the cooldown is positive every dead credential whose quarantine has
elapsed is back in the alive list), then fails exactly when the alive list is
empty, and otherwise bumps the selection counter to a fresh value `n` and
returns `alive[(n − 1) mod |alive|]`. -/
theorem getNextKey_contract (km : KeyManager) (now : Nat) :
    (km.cooldown = 0 → reviveExpiredKeys now km = km) ∧
    (kmInv km → km.cooldown ≠ 0 → ∀ p ∈ km.deadKeys, km.cooldown ≤ now - p.2 →
        p.1 ∈ (reviveExpiredKeys now km).keys) ∧
    ((reviveExpiredKeys now km).keys = [] ↔ (GetNextKey now km).1 = none) ∧
    ((reviveExpiredKeys now km).keys ≠ [] →
      (GetNextKey now km).2.index = (reviveExpiredKeys now km).index + 1 ∧
      (GetNextKey now km).2.keys = (reviveExpiredKeys now km).keys ∧
      (GetNextKey now km).1 = some ((reviveExpiredKeys now km).keys.getD
          (((GetNextKey now km).2.index - 1) % (reviveExpiredKeys now km).keys.length) "")) := by
  refine ⟨?_, ?_, ?_, ?_⟩
  · intro h0
    simp only [reviveExpiredKeys]
    rw [if_pos h0]
  · rintro ⟨_, h2, _, _, _, h6⟩ hc0 p hp hcool
    simp only [reviveExpiredKeys]
    rw [if_neg hc0]
    refine foldl_ReviveKey_mem_of_dead _ ?_ (h2 p hp) ?_ (dkLookup_isSome_of_mem hp)
    · exact List.mem_map.mpr ⟨p, List.mem_filter.mpr ⟨hp, by simpa using hcool⟩, rfl⟩
    · intro he
      exact h6 (he ▸ h2 p hp)
  · constructor
    · intro h
      simp only [GetNextKey]
      rw [if_pos (by simpa using congrArg List.length h)]
    · intro h
      by_contra hne
      simp only [GetNextKey] at h
      rw [if_neg (fun hh => hne (List.length_eq_zero.mp hh))] at h
      simp at h
  · intro hne
    have hlen : (reviveExpiredKeys now km).keys.length ≠ 0 :=
      fun hh => hne (List.length_eq_zero.mp hh)
    simp only [GetNextKey]
    rw [if_neg hlen]
    refine ⟨rfl, rfl, ?_⟩
    simp

/-- C5: starting from any constructed pool, after any sequence of pool
operations the pool invariants hold (alive and dead credentials are original,
alive and dead are disjoint, the alive list has no duplicates), the original
membership set is unchanged, and appending one more operation never decreases
the selection counter. -/
theorem pool_invariants (keys : List String) (cd : Nat) (ops : List KMOp) :
    kmInv (runOps ops (NewKeyManager keys cd)) ∧
    (runOps ops (NewKeyManager keys cd)).originalKeys = (NewKeyManager keys cd).originalKeys ∧
    ∀ op : KMOp,
      (runOps ops (NewKeyManager keys cd)).index ≤ (runOps (ops ++ [op]) (NewKeyManager keys cd)).index := by
  refine ⟨kmInv_runOps ops (kmInv_NewKeyManager keys cd), ?_, ?_⟩
  · have haop : ∀ (op : KMOp) (km : KeyManager), (applyOp op km).originalKeys = km.originalKeys := by
      intro op km
      cases op with
      | next now => exact GetNextKey_originalKeys now km
      | markDead k now => exact MarkAsDead_originalKeys k now km
      | revive k => exact ReviveKey_originalKeys k km
    have hrun : ∀ (l : List KMOp) (km : KeyManager), (runOps l km).originalKeys = km.originalKeys := by
      intro l
      induction l with
      | nil => intro km; rfl
      | cons op rest ih =>
          intro km
          rw [runOps, List.foldl_cons, ← runOps, ih, haop]
    exact hrun ops _
  · intro op
    rw [runOps_append]
    exact applyOp_index_ge op _

/-- C6: marking a credential dead and immediately (at the same instant)
asking for the next credential never hands back the credential just marked,
whatever the cooldown, provided at least one credential remains alive. -/
theorem markDead_then_next_avoids (km : KeyManager) (c : String) (now : Nat)
    (hinv : kmInv km) (_hne : (MarkAsDead c now km).keys ≠ []) :
    (GetNextKey now (MarkAsDead c now km)).1 ≠ some c := by
  obtain ⟨h1, h2, h3, h4, h5, h6⟩ := hinv
  intro hsome
  have hmem := GetNextKey_mem hsome
  by_cases hce : c = ""
  · rw [MarkAsDead_eq_self_empty now km hce] at hmem
    refine notMem_reviveExpiredKeys now ?_ ?_ hmem
    · exact fun hk => h6 (hce ▸ h1 c hk)
    · intro p hp hpc _ _
      exact h6 (hce ▸ hpc ▸ h2 p hp)
  · by_cases horig : c ∈ km.originalKeys
    · rw [MarkAsDead_eq_main now km hce horig] at hmem
      refine notMem_reviveExpiredKeys now ?_ ?_ hmem
      · intro hk
        have := List.mem_filter.mp hk
        simp at this
      · intro p hp hpc hc0 hcool
        have hnd : ((dkUpdate km.deadKeys c now).map Prod.fst).Nodup :=
          dkUpdate_map_fst_nodup c now h5
        have hpeta : (c, p.2) = p := by rw [← hpc]
        have hlp : dkLookup (dkUpdate km.deadKeys c now) c = some p.2 :=
          dkLookup_eq_some_of_mem_nodup hnd (hpeta ▸ hp)
        rw [dkLookup_update_self] at hlp
        have : p.2 = now := by injection hlp.symm
        rw [this, Nat.sub_self, Nat.le_zero] at hcool
        exact hc0 hcool
    · rw [MarkAsDead_eq_self_unknown now km hce horig] at hmem
      refine notMem_reviveExpiredKeys now ?_ ?_ hmem
      · exact fun hk => horig (h1 c hk)
      · intro p hp hpc _ _
        exact horig (hpc ▸ h2 p hp)

/-- C6 witness: on a fresh two-key pool with positive cooldown, after marking
key `a` dead the very next selection does not return `a`. -/
theorem markDead_then_next_avoids_witness :
    (GetNextKey 7 (MarkAsDead "a" 7 kmC6)).1 ≠ some "a" :=
  markDead_then_next_avoids kmC6 "a" 7 (by decide) (by decide)

/-- C9: marking an alive credential dead then reviving it leaves the pool
with that credential occurring exactly once in the alive list and absent from
the dead set. -/
theorem markDead_revive_roundtrip (km : KeyManager) (c : String) (now : Nat)
    (hinv : kmInv km) (halive : c ∈ km.keys) :
    (ReviveKey c (MarkAsDead c now km)).keys.count c = 1 ∧
    dkLookup (ReviveKey c (MarkAsDead c now km)).deadKeys c = none := by
  obtain ⟨h1, _, _, _, _, h6⟩ := hinv
  have horig : c ∈ km.originalKeys := h1 c halive
  have hce : c ≠ "" := fun h => h6 (h ▸ horig)
  rw [MarkAsDead_eq_main now km hce horig]
  unfold ReviveKey
  rw [if_neg hce, if_neg (not_not_intro horig),
    if_neg (by simp [dkLookup_update_self]),
    if_neg (by simp [List.mem_filter])]
  constructor
  · rw [List.count_append]
    have hnot : c ∉ km.keys.filter fun k => k ≠ c := by
      simp [List.mem_filter]
    rw [List.count_eq_zero.mpr hnot]
    simp
  · rw [dkLookup_erase, if_pos rfl]

/-- C9 witness: on a fresh two-key pool, `MarkAsDead "a"` then
`ReviveKey "a"` leaves `a` alive exactly once and not dead. -/
theorem markDead_revive_roundtrip_witness :
    (ReviveKey "a" (MarkAsDead "a" 3 kmC9)).keys.count "a" = 1 ∧
    dkLookup (ReviveKey "a" (MarkAsDead "a" 3 kmC9)).deadKeys "a" = none :=
  markDead_revive_roundtrip kmC9 "a" 3 (by decide) (by decide)

/-- C4 witness: on a concrete mid-life pool with counter 4, cooldown 0 and
three alive keys, `GetNextKey` bumps the counter to 5 and returns
`alive[(5 − 1) mod 3]`, which is `b`. -/
theorem getNextKey_contract_witness :
    (GetNextKey 0 kmC4).2.index = (reviveExpiredKeys 0 kmC4).index + 1 ∧
    (GetNextKey 0 kmC4).1 = some ((reviveExpiredKeys 0 kmC4).keys.getD
        (((GetNextKey 0 kmC4).2.index - 1) % (reviveExpiredKeys 0 kmC4).keys.length) "") ∧
    (GetNextKey 0 kmC4).1 = some "b" := by
  have h := (getNextKey_contract kmC4 0).2.2.2 (by decide)
  exact ⟨h.1, h.2.2, by decide⟩

/-! ### Claim theorems about gateway, cache and translation -/

/-- C2 (code defect): `StripAuthHeadersMiddleware` never modifies the request
— in particular, on a request carrying `Authorization` and `X-Api-Key`
headers, both are still present when the downstream core executes, contrary
to the middleware name, its doc comment and the spec. -/
theorem stripAuthHeaders_leaves_headers :
    (∀ c : GinCtx, (StripAuthHeadersMiddleware c).req = c.req) ∧
    getHeader (StripAuthHeadersMiddleware ctxC2).req "Authorization" = "Bearer sk-secret-token" ∧
    getHeader (StripAuthHeadersMiddleware ctxC2).req "X-Api-Key" = "another-secret" := by
  refine ⟨?_, by decide, by decide⟩
  intro c
  unfold StripAuthHeadersMiddleware
  split
  · rfl
  · rfl

/-- C1 (code defect): on the pool `[K401, KOK]` whose first credential draws
a non-retryable upstream 401, the retry loop stops after exactly one attempt
and no credential is quarantined — but the gateway surfaces the failure as
HTTP 503 `server_error`, not HTTP 400 `invalid_request_error`. -/
theorem nonRetryable_surfaced_as_503 :
    isRetryableError "gemini API error [401]: API key not valid. Please pass a valid API key." = false ∧
    (executeWithRetry upstreamC1 0 3 kmC1).attempts = 1 ∧
    (executeWithRetry upstreamC1 0 3 kmC1).km.deadKeys = [] ∧
    (executeWithRetry upstreamC1 0 3 kmC1).km.keys = ["K401", "KOK"] ∧
    (HandleChatCompletion upstreamC1 0 3 kmC1 reqC1).1 =
      GatewayResponse.err 503 "server_error" "Service temporarily unavailable. Please try again later." := by
  decide

/-- The message loop of `mapToGeminiRequest`, characterised: content entries
are the ordered image of the `user`/`assistant` messages, and the pending
system-instruction string ends up being the content of the last `system`
message (the accumulator if there is none). -/
theorem foldl_geminiMsgStep (msgs : List OpenAIMessage) (cs : List GeminiContent) (sys : String) :
    msgs.foldl geminiMsgStep (cs, sys) =
      (cs ++ geminiContentsSpec msgs,
        ((msgs.filter fun m => m.role = "system").map OpenAIMessage.content).getLastD sys) := by
  induction msgs generalizing cs sys with
  | nil => simp [geminiContentsSpec]
  | cons m rest ih =>
      rw [List.foldl_cons]
      by_cases hs : m.role = "system"
      · have hu : m.role ≠ "user" := by rw [hs]; decide
        have ha : m.role ≠ "assistant" := by rw [hs]; decide
        have hstep : geminiMsgStep (cs, sys) m = (cs, m.content) := by
          unfold geminiMsgStep
          rw [if_pos hs]
        have hspec : geminiContentsSpec (m :: rest) = geminiContentsSpec rest := by
          unfold geminiContentsSpec
          rw [List.filterMap_cons_none (by rw [if_neg hu, if_neg ha])]
        have hfil : (m :: rest).filter (fun x => decide (x.role = "system"))
            = m :: rest.filter (fun x => decide (x.role = "system")) :=
          List.filter_cons_of_pos (by simp [hs])
        rw [hstep, ih, hspec, hfil, List.map_cons, List.getLastD_cons]
      · by_cases hu : m.role = "user"
        · have hstep : geminiMsgStep (cs, sys) m = (cs ++ [⟨"user", [⟨m.content⟩]⟩], sys) := by
            unfold geminiMsgStep
            rw [if_neg hs, if_pos hu]
          have hspec : geminiContentsSpec (m :: rest)
              = GeminiContent.mk "user" [⟨m.content⟩] :: geminiContentsSpec rest := by
            unfold geminiContentsSpec
            rw [List.filterMap_cons_some (by rw [if_pos hu])]
          have hfil : (m :: rest).filter (fun x => decide (x.role = "system"))
              = rest.filter (fun x => decide (x.role = "system")) :=
            List.filter_cons_of_neg (by simp [hs])
          rw [hstep, ih, hspec, hfil, List.append_assoc, List.singleton_append]
        · by_cases ha : m.role = "assistant"
          · have hstep : geminiMsgStep (cs, sys) m = (cs ++ [⟨"model", [⟨m.content⟩]⟩], sys) := by
              unfold geminiMsgStep
              rw [if_neg hs, if_neg hu, if_pos ha]
            have hspec : geminiContentsSpec (m :: rest)
                = GeminiContent.mk "model" [⟨m.content⟩] :: geminiContentsSpec rest := by
              unfold geminiContentsSpec
              rw [List.filterMap_cons_some (by rw [if_neg hu, if_pos ha])]
            have hfil : (m :: rest).filter (fun x => decide (x.role = "system"))
                = rest.filter (fun x => decide (x.role = "system")) :=
              List.filter_cons_of_neg (by simp [hs])
            rw [hstep, ih, hspec, hfil, List.append_assoc, List.singleton_append]
          · have hstep : geminiMsgStep (cs, sys) m = (cs, sys) := by
              unfold geminiMsgStep
              rw [if_neg hs, if_neg hu, if_neg ha]
            have hspec : geminiContentsSpec (m :: rest) = geminiContentsSpec rest := by
              unfold geminiContentsSpec
              rw [List.filterMap_cons_none (by rw [if_neg hu, if_neg ha])]
            have hfil : (m :: rest).filter (fun x => decide (x.role = "system"))
                = rest.filter (fun x => decide (x.role = "system")) :=
              List.filter_cons_of_neg (by simp [hs])
            rw [hstep, ih, hspec, hfil]

/-- C3 counterexample: on a request with the two system messages `A` then
`B`, the produced system instruction is exactly `B` — it does not contain the
first system message `A`, so system messages are not concatenated. -/
theorem systemInstruction_not_concatenated :
    (mapToGeminiRequest reqC3).systemInstruction = some ⟨"", [⟨"B"⟩]⟩ ∧
    strContains "B" "A" = false := by
  decide

/-- C3 amended: `user`/`assistant` messages become ordered content entries
with `assistant` relabelled `model`, and the single system-instruction field
carries the content of the LAST `system` message only (omitted when there is
no system message or its content is empty); earlier system messages are
discarded. -/
theorem geminiRequest_translation {F : Type} (req : OpenAIRequest F) :
    (mapToGeminiRequest req).contents = geminiContentsSpec req.messages ∧
    (mapToGeminiRequest req).systemInstruction =
      (if lastSystemContent req.messages = "" then none
        else some ⟨"", [⟨lastSystemContent req.messages⟩]⟩) := by
  constructor
  · simp only [mapToGeminiRequest, foldl_geminiMsgStep, List.nil_append]
  · simp only [mapToGeminiRequest, foldl_geminiMsgStep]
    unfold lastSystemContent
    by_cases h : ((req.messages.filter fun m => decide (m.role = "system")).map OpenAIMessage.content).getLastD "" = ""
    · simp [h]
    · simp [h]

/-- C7 counterexample: at the boundary instant `now = expiry` (entry expiring
at 5, read at 5) `Get` is a HIT — it returns the stored bytes and bumps the
hit counter, not the miss counter — whereas the claim demands a miss at
`now ≥ expiry`. -/
theorem flashCacheGet_boundary_hit :
    (FlashCacheGet 5 "k" cacheC7).1 = some "resp" ∧
    (FlashCacheGet 5 "k" cacheC7).2.hits = 1 ∧
    (FlashCacheGet 5 "k" cacheC7).2.misses = 0 ∧
    (FlashCacheGet 5 "k" cacheC7).2.entries = cacheC7.entries := by
  decide

/-- C7 amended: `Get` misses (and counts a miss) on an absent entry; deletes,
counts a miss and misses on an entry with `now` STRICTLY after its expiry
instant; and otherwise hits, returning exactly the stored bytes — at the
boundary `now = expiry` the entry is still served. -/
theorem flashCacheGet_contract (c : FlashCache) (key : String) (now : Nat) :
    (dkLookup c.entries key = none →
      FlashCacheGet now key c = (none, { c with misses := c.misses + 1 })) ∧
    (∀ e, dkLookup c.entries key = some e → e.expireAt < now →
      FlashCacheGet now key c =
        (none, { c with entries := dkErase c.entries key, misses := c.misses + 1 })) ∧
    (∀ e, dkLookup c.entries key = some e → ¬ e.expireAt < now →
      FlashCacheGet now key c = (some e.response, { c with hits := c.hits + 1 })) := by
  refine ⟨?_, ?_, ?_⟩
  · intro h
    unfold FlashCacheGet
    rw [h]
  · intro e he hexp
    unfold FlashCacheGet
    rw [he]
    simp [IsExpired, hexp]
  · intro e he hexp
    unfold FlashCacheGet
    rw [he]
    simp [IsExpired, hexp]

/-- C7 witness: one instant past expiry the entry is deleted and the read
counts as a miss. -/
theorem flashCacheGet_contract_witness :
    FlashCacheGet 6 "k" cacheC7 =
      (none, { cacheC7 with entries := dkErase cacheC7.entries "k", misses := cacheC7.misses + 1 }) :=
  (flashCacheGet_contract cacheC7 "k" 6).2.1 ⟨"resp", 5, 0⟩ (by decide) (by decide)

/-- Shape of the cache state `Get` leaves behind: unchanged on a hit, and on
a miss either unchanged or with the looked-up key erased. -/
theorem FlashCacheGet_shape (now : Nat) (key : String) (c : FlashCache) :
    ((FlashCacheGet now key c).1.isSome → (FlashCacheGet now key c).2.entries = c.entries) ∧
    ((FlashCacheGet now key c).1 = none →
      (FlashCacheGet now key c).2.entries = c.entries ∨
      (FlashCacheGet now key c).2.entries = dkErase c.entries key) := by
  unfold FlashCacheGet
  rcases h : dkLookup c.entries key with _ | e
  · simp
  · by_cases hexp : IsExpired now e = true
    · simp [hexp]
    · simp [hexp]

/-- C8: across one request through the cache middleware, a cache entry is
inserted only for the request's own fingerprint and only when the final
status is 200 (hence 2xx); when the final status is not 2xx every surviving
entry was already present; and a request served from the cache leaves the
entry map untouched. -/
theorem cacheMiddleware_admission (hash : String → String) (now : Nat)
    (method path reqBody : String) (hStatus : Nat) (hBody : String) (c : FlashCache)
    (r : MWResult) (hr : r = CacheMiddleware hash now method path reqBody hStatus hBody c) :
    (∀ k e, dkLookup r.cache.entries k = some e → dkLookup c.entries k ≠ some e →
      r.status = 200 ∧ k = hash reqBody ∧ r.servedFromCache = false) ∧
    (¬ (200 ≤ r.status ∧ r.status < 300) →
      ∀ k e, dkLookup r.cache.entries k = some e → dkLookup c.entries k = some e) ∧
    (r.servedFromCache = true → r.cache.entries = c.entries) := by
  subst hr
  simp only [CacheMiddleware]
  split
  · refine ⟨?_, ?_, ?_⟩
    · intro k e hl hne
      exact absurd hl hne
    · intro _ k e hl
      exact hl
    · intro hh
      simp at hh
  · rcases hfg : FlashCacheGet now (hash reqBody) c with ⟨o, c1⟩
    have hshape := FlashCacheGet_shape now (hash reqBody) c
    rw [hfg] at hshape
    cases o with
    | some cached =>
        have hent : c1.entries = c.entries := hshape.1 (by simp)
        dsimp only
        refine ⟨?_, ?_, ?_⟩
        · intro k e hl hne
          rw [hent] at hl
          exact absurd hl hne
        · intro habs
          exact absurd ⟨by norm_num, by norm_num⟩ habs
        · intro _
          exact hent
    | none =>
        have hmiss : c1.entries = c.entries ∨ c1.entries = dkErase c.entries (hash reqBody) :=
          hshape.2 rfl
        dsimp only
        split
        · rename_i h200
          dsimp only
          refine ⟨?_, ?_, ?_⟩
          · intro k e hl _hne
            refine ⟨h200, ?_, rfl⟩
            by_cases hk : k = hash reqBody
            · exact hk
            · exfalso
              simp only [FlashCacheSet] at hl
              rw [dkLookup_update_ne _ _ _ _ hk] at hl
              rcases hmiss with hm | hm
              · rw [hm] at hl
                exact _hne hl
              · rw [hm, dkLookup_erase, if_neg hk] at hl
                exact _hne hl
          · intro habs
            rw [h200] at habs
            exact absurd ⟨by norm_num, by norm_num⟩ habs
          · intro hh
            simp at hh
        · dsimp only
          refine ⟨?_, ?_, ?_⟩
          · intro k e hl hne
            exfalso
            rcases hmiss with hm | hm
            · rw [hm] at hl
              exact hne hl
            · rw [hm, dkLookup_erase] at hl
              split at hl
              · simp at hl
              · exact hne hl
          · intro _ k e hl
            rcases hmiss with hm | hm
            · rw [hm] at hl
              exact hl
            · rw [hm, dkLookup_erase] at hl
              split at hl
              · simp at hl
              · exact hl
          · intro hh
            simp at hh

/-- C8 witness: a fresh POST chat-completion request whose downstream outcome
is a 200 inserts an entry under its own fingerprint, with the final status
200 and not served from cache. -/
theorem cacheMiddleware_admission_witness :
    (CacheMiddleware (fun s => s) 0 "POST" "/v1/chat/completions" "body" 200 "resp" cacheC8).status = 200 ∧
    "body" = (fun s : String => s) "body" ∧
    (CacheMiddleware (fun s => s) 0 "POST" "/v1/chat/completions" "body" 200 "resp" cacheC8).servedFromCache = false :=
  (cacheMiddleware_admission (fun s => s) 0 "POST" "/v1/chat/completions" "body" 200 "resp"
    cacheC8 _ rfl).1 "body" ⟨"resp", 300, 0⟩ (by decide) (by decide)

/-- C10: a message whose role is none of `system`, `user`, `assistant` is
silently dropped by the translation — removing it from the message list does
not change the provider request — and gateway validation still accepts the
request, since it only checks that the messages array is non-empty. -/
theorem unknownRole_ignored {F : Type} (req : OpenAIRequest F) (l1 l2 : List OpenAIMessage)
    (m : OpenAIMessage) (hmsgs : req.messages = l1 ++ m :: l2)
    (h1 : m.role ≠ "system") (h2 : m.role ≠ "user") (h3 : m.role ≠ "assistant") :
    mapToGeminiRequest req = mapToGeminiRequest { req with messages := l1 ++ l2 } ∧
    validateChatRequest req = none := by
  have hstep : ∀ acc : List GeminiContent × String, geminiMsgStep acc m = acc := by
    intro acc
    unfold geminiMsgStep
    rw [if_neg h1, if_neg h2, if_neg h3]
  constructor
  · unfold mapToGeminiRequest
    rw [hmsgs]
    simp only [List.foldl_append, List.foldl_cons, hstep]
  · unfold validateChatRequest
    rw [if_neg (by rw [hmsgs]; simp)]

/-- C10 witness: a request `[function, user]` translates exactly as the
request `[user]` does, and is not rejected by validation. -/
theorem unknownRole_ignored_witness :
    mapToGeminiRequest reqC10 = mapToGeminiRequest { reqC10 with messages := [⟨"user", "hi"⟩] } ∧
    validateChatRequest reqC10 = none :=
  unknownRole_ignored reqC10 [] [⟨"user", "hi"⟩] ⟨"function", "tool output"⟩ rfl
    (by decide) (by decide) (by decide)

end ApiKeyRouter

